import Mathlib

/-!
Shallow embedding of the "new-style" LHA decoder (`src/lib/lh_new_decoder.c`,
used by the -lh4-, -lh5-, -lh6- and -lh7- methods) and proofs about it.

The decoder source is a template parameterized by the preprocessor constants
`HISTORY_BITS` (ring-buffer size is `RING_BUFFER_SIZE = 1 << HISTORY_BITS`)
and `OFFSET_BITS`; the embedding carries these as explicit `Nat` arguments
`HB` and `OB`.

The C file includes `bit_stream_reader.c` and `tree_decode.c`, which are not
part of the sources checked here; the bit reader and the Huffman tree are
modelled from the specification (sections 4.1 and 4.2).  The input bit stream
is a `List Bool` (MSB-first, in stream order); machine integers are `Nat`
with explicit reductions modulo `2 ^ 32` where the C unsigned arithmetic can
wrap.  Fallible reads return `Option`.
-/

/-- Modelled from the spec: `bit_stream_reader.c` is not among the checked
sources.  §4.1: "`read_bits(n)`: consume the next `n` bits MSB-first from the
stream and return their unsigned value.  Fails with `END_OF_INPUT` if the
underlying byte source cannot supply enough bytes to complete the read."
The value of a MSB-first bit list. -/
def bits_to_nat (l : List Bool) : Nat :=
  l.foldl (fun a b => 2 * a + (if b then 1 else 0)) 0

/-- Modelled from the spec (§4.1): read `n` bits MSB-first, failing when the
stream has fewer than `n` bits left. -/
def read_bits (n : Nat) (bs : List Bool) : Option (Nat × List Bool) :=
  if n ≤ bs.length then some (bits_to_nat (bs.take n), bs.drop n) else none

/-- Modelled from the spec (§4.1): "`read_bit()`: convenience for
`read_bits(1)`." -/
def read_bit (bs : List Bool) : Option (Nat × List Bool) :=
  read_bits 1 bs

/-- Modelled from the spec: `tree_decode.c` is not among the checked sources.
§3 and §4.2 describe a binary decoding trie over `TreeElement`s with an empty
state (`init_tree`), a "single code" state in which "any decode attempt yields
`symbol` without consuming bits" (`set_tree_single`), leaves, and internal
nodes (0 = left child, 1 = right child).  The flat-array packing of the C
code is not part of the contract (§9: "Either a flat-array binary walk or a
table lookup is conforming"), so the trie is represented structurally. -/
inductive HTree where
  | empty : HTree
  | leaf (s : Nat) : HTree
  | single (s : Nat) : HTree
  | node (l r : HTree) : HTree
deriving DecidableEq

/-- Modelled from the spec (§4.2): "`init_tree(table, capacity)`: wipe table
to a known empty state." -/
def init_tree : HTree :=
  HTree.empty

/-- Modelled from the spec (§4.2): "`set_tree_single(table, symbol)`:
configure the tree such that any decode attempt yields `symbol` without
consuming bits." -/
def set_tree_single (symbol : Nat) : HTree :=
  HTree.single symbol

/-- Modelled from the spec (§4.2): "`read_from_tree(bitreader, table)`:
starting at the root, consume bits one at a time (0 = left child, 1 = right
child) until a leaf is reached; return the leaf's symbol.  If the bit stream
fails mid-decode, return the failure."  An empty tree fails (§7: "Decode tree
empty when attempting to decode a symbol ... must not crash"). -/
def read_from_tree : HTree → List Bool → Option (Nat × List Bool)
  | HTree.single s, bs => some (s, bs)
  | HTree.leaf s, bs => some (s, bs)
  | HTree.empty, _ => none
  | HTree.node _ _, [] => none
  | HTree.node l r, b :: bs => if b then read_from_tree r bs else read_from_tree l bs

/-- The symbols of a `lengths` array that have non-zero code length, paired
with their lengths; `i` is the symbol id of the head of the list. -/
def idx_nonzero : List Nat → Nat → List (Nat × Nat)
  | [], _ => []
  | l :: rest, i =>
    if l = 0 then idx_nonzero rest (i + 1) else (i, l) :: idx_nonzero rest (i + 1)

/-- Canonical-Huffman ordering on (symbol, length) pairs: length ascending,
then symbol id ascending (§4.2). -/
def canon_le (a b : Nat × Nat) : Bool :=
  a.2 < b.2 || (a.2 = b.2 && a.1 ≤ b.1)

/-- Insertion into a list sorted by `canon_le`. -/
def canon_insert (a : Nat × Nat) : List (Nat × Nat) → List (Nat × Nat)
  | [] => [a]
  | b :: rest => if canon_le a b then a :: b :: rest else b :: canon_insert a rest

/-- Insertion sort by `canon_le` (stability and the precise order only matter
for wire-format compatibility; the proofs below use only membership). -/
def canon_sort : List (Nat × Nat) → List (Nat × Nat)
  | [] => []
  | a :: rest => canon_insert a (canon_sort rest)

/-- Modelled from the spec (§4.2): canonical code assignment.  "sort symbols
by (length ascending, symbol-id ascending); the first symbol of length L gets
the next available L-bit code (doubled each time length increases, starting
from 0 at the shortest length)."  Takes the sorted (symbol, length) list, the
previous length and the next available code; yields (symbol, length, code). -/
def assign_codes : List (Nat × Nat) → Nat → Nat → List (Nat × Nat × Nat)
  | [], _, _ => []
  | (s, l) :: rest, prevLen, nextCode =>
    let c := nextCode <<< (l - prevLen)
    (s, l, c) :: assign_codes rest l (c + 1)

/-- The `len` bits of `code`, MSB first: the root-to-leaf path of a canonical
code. -/
def code_bits (len code : Nat) : List Bool :=
  (List.range len).map (fun k => code.testBit (len - 1 - k))

/-- Insert a symbol into the trie along its code path.  A collision with an
already-placed leaf, or a code that runs out inside the trie, leaves the tree
unchanged (§4.2: "When lengths over-subscribe the code space, the build must
still terminate without writing past the table; surplus symbols are silently
ignored"). -/
def insert_sym : HTree → List Bool → Nat → HTree
  | HTree.empty, [], s => HTree.leaf s
  | HTree.empty, b :: rest, s =>
    if b then HTree.node HTree.empty (insert_sym HTree.empty rest s)
    else HTree.node (insert_sym HTree.empty rest s) HTree.empty
  | HTree.node l r, b :: rest, s =>
    if b then HTree.node l (insert_sym r rest s)
    else HTree.node (insert_sym l rest s) r
  | t, _, _ => t

/-- Modelled from the spec (§4.2): "`build_tree(table, capacity, lengths[],
n)`: construct a canonical Huffman tree from `n` code lengths (index = symbol
id, value = code length in bits; length 0 = symbol unused)." -/
def build_tree (lengths : List Nat) : HTree :=
  (assign_codes (canon_sort (idx_nonzero lengths 0)) 0 0).foldl
    (fun t slc => insert_sym t (code_bits slc.2.1 slc.2.2) slc.1) HTree.empty

/-- Returns `true` iff every symbol stored in the tree (leaf or single-code) is
below `B`. -/
def tree_syms_below (B : Nat) : HTree → Bool
  | HTree.empty => true
  | HTree.leaf s => decide (s < B)
  | HTree.single s => decide (s < B)
  | HTree.node l r => tree_syms_below B l && tree_syms_below B r

/-- Decoder state, from `LHANewDecoder` (`lh_new_decoder.c:65`): the input
bit stream, the history ring buffer and its write position, the number of
commands remaining in the current block, and the two tree tables. -/
structure LHANewDecoder where
  bits : List Bool
  ringbuf : List Nat
  ringbuf_pos : Nat
  block_remaining : Nat
  code_tree : HTree
  offset_tree : HTree
deriving DecidableEq

/-- From `init_ring_buffer` (`lh_new_decoder.c:92`): fill the ring buffer with
`' '` (0x20 = 32) and reset the write position. -/
def init_ring_buffer (HB : Nat) (d : LHANewDecoder) : LHANewDecoder :=
  { d with ringbuf := List.replicate (2 ^ HB) 32, ringbuf_pos := 0 }

/-- From `lha_lh_new_init` (`lh_new_decoder.c:98`): install the input stream,
initialize the ring buffer, set `block_remaining = 0` so that the first read
starts the first block, and wipe both trees. -/
def lha_lh_new_init (HB : Nat) (bs : List Bool) : LHANewDecoder :=
  init_ring_buffer HB
    { bits := bs, ringbuf := [], ringbuf_pos := 0, block_remaining := 0,
      code_tree := init_tree, offset_tree := init_tree }

/-- The unary extension of `read_length_value` (`lh_new_decoder.c:137-151`):
keep reading single bits, incrementing `len` for each 1, and stop at the
first 0; fail if the stream runs out. -/
def read_length_ext : Nat → List Bool → Option (Nat × List Bool)
  | _, [] => none
  | len, b :: bs => if b then read_length_ext (len + 1) bs else some (len, bs)

/-- From `read_length_value` (`lh_new_decoder.c:127`): read 3 bits; if the value
is 7, extend it in unary. -/
def read_length_value (bs : List Bool) : Option (Nat × List Bool) :=
  match read_bits 3 bs with
  | none => none
  | some lb => if lb.1 = 7 then read_length_ext 7 lb.2 else some lb

/-- Write `cnt` zeros at indices `start, start+1, ...` — the inner loops of
`read_temp_table` (`lh_new_decoder.c:214-217`) and `read_code_table`
(`lh_new_decoder.c:325-328`). -/
def zero_range : List Nat → Nat → Nat → List Nat
  | cl, _, 0 => cl
  | cl, start, k + 1 => zero_range (cl.set start 0) (start + 1) k

/-- The reading loop of `read_temp_table` (`lh_new_decoder.c:194-219`).
`cl` is the `code_lengths` array, a `uint8_t` array in the C
(`lh_new_decoder.c:162`), so every stored length is reduced modulo `2^8`;
`ws` additionally records every array store the loop performs, as
(index, value) pairs in program order (the C loop writes
`code_lengths[i] = len` at `lh_new_decoder.c:201` — truncating `len` to
8 bits, which matters when the unary extension of `read_length_value`
pushes it past 255 — and, when `i == 2`, `code_lengths[i] = 0` at
`lh_new_decoder.c:216` after `++i`, without re-checking `i < n`). -/
def temp_table_loop (n i : Nat) (cl : List Nat) (ws : List (Nat × Nat))
    (bs : List Bool) : Option (List Nat × List (Nat × Nat) × List Bool) :=
  if i < n then
    match read_length_value bs with
    | none => none
    | some lb =>
      if i = 2 then
        match read_bits 2 lb.2 with
        | none => none
        | some sb =>
          temp_table_loop n (i + sb.1 + 1)
            (zero_range (cl.set i (lb.1 % 256)) (i + 1) sb.1)
            (ws ++ [(i, lb.1 % 256)] ++ (List.range sb.1).map (fun j => (i + 1 + j, 0))) sb.2
      else
        temp_table_loop n (i + 1) (cl.set i (lb.1 % 256)) (ws ++ [(i, lb.1 % 256)]) lb.2
  else
    some (cl, ws, bs)
termination_by n - i
decreasing_by
  · omega
  · omega

/-- From `read_temp_table` (`lh_new_decoder.c:159`): 5-bit code count `n`; `n = 0`
configures the offset/temp tree as a single 5-bit code; otherwise `n` is
clamped to `MAX_TEMP_CODES = 20` and the lengths are read by
`temp_table_loop`, then the tree is built from the first `n` lengths. -/
def read_temp_table (d : LHANewDecoder) : Option LHANewDecoder :=
  match read_bits 5 d.bits with
  | none => none
  | some nb =>
    if nb.1 = 0 then
      match read_bits 5 nb.2 with
      | none => none
      | some cb => some { d with bits := cb.2, offset_tree := set_tree_single cb.1 }
    else
      match temp_table_loop (min nb.1 20) 0 (List.replicate 20 0) [] nb.2 with
      | none => none
      | some r =>
        some { d with bits := r.2.2,
                      offset_tree := build_tree (r.1.take (min nb.1 20)) }

/-- From `read_skip_count` (`lh_new_decoder.c:230`): skiprange 0 means 1 code;
skiprange 1 reads 4 bits and adds 3; otherwise 9 bits are read and 20 is
added. -/
def read_skip_count (skiprange : Nat) (bs : List Bool) : Option (Nat × List Bool) :=
  if skiprange = 0 then
    some (1, bs)
  else if skiprange = 1 then
    match read_bits 4 bs with
    | none => none
    | some rb => some (rb.1 + 3, rb.2)
  else
    match read_bits 9 bs with
    | none => none
    | some rb => some (rb.1 + 20, rb.2)

/-- The reading loop of `read_code_table` (`lh_new_decoder.c:303-333`): while
`i < n`, decode a code from the temp tree; a code `≤ 2` yields a skip count
whose run of zero lengths is bounded by `n` (the C inner loop condition is
`j < skip_count && i < n`); a code `> 2` stores length `code - 2`. -/
def code_table_loop (t : HTree) (n i : Nat) (cl : List Nat) (bs : List Bool) :
    Option (List Nat × List Bool) :=
  if hin : i < n then
    match read_from_tree t bs with
    | none => none
    | some cb =>
      if cb.1 ≤ 2 then
        match hsc : read_skip_count cb.1 cb.2 with
        | none => none
        | some sb =>
          code_table_loop t n (i + min sb.1 (n - i)) (zero_range cl i (min sb.1 (n - i))) sb.2
      else
        code_table_loop t n (i + 1) (cl.set i (cb.1 - 2)) cb.2
  else
    some (cl, bs)
termination_by n - i
decreasing_by
  · have hpos : 1 ≤ sb.1 := by
      obtain ⟨s1, s2⟩ := sb
      show 1 ≤ s1
      unfold read_skip_count at hsc
      split at hsc
      · simp only [Option.some.injEq, Prod.mk.injEq] at hsc
        omega
      · split at hsc
        · split at hsc
          · exact absurd hsc (by simp)
          · simp only [Option.some.injEq, Prod.mk.injEq] at hsc
            omega
        · split at hsc
          · exact absurd hsc (by simp)
          · simp only [Option.some.injEq, Prod.mk.injEq] at hsc
            omega
    omega
  · omega

/-- From `read_code_table` (`lh_new_decoder.c:267`): 9-bit code count `n`; `n = 0`
configures the code tree as a single raw 9-bit code; otherwise `n` is clamped
to `NUM_CODES = 510`, the lengths are decoded through the temp tree by
`code_table_loop`, and the code tree is built from the first `n` lengths. -/
def read_code_table (d : LHANewDecoder) : Option LHANewDecoder :=
  match read_bits 9 d.bits with
  | none => none
  | some nb =>
    if nb.1 = 0 then
      match read_bits 9 nb.2 with
      | none => none
      | some cb => some { d with bits := cb.2, code_tree := set_tree_single cb.1 }
    else
      match code_table_loop d.offset_tree (min nb.1 510) 0 (List.replicate 510 0) nb.2 with
      | none => none
      | some r =>
        some { d with bits := r.2, code_tree := build_tree (r.1.take (min nb.1 510)) }

/-- The reading loop of `read_offset_table` (`lh_new_decoder.c:375-383`):
`k` lengths in order, each by `read_length_value`, stored into a `uint8_t`
array (`lh_new_decoder.c:343,382`), hence reduced modulo `2^8`. -/
def offset_lengths_loop : Nat → List Bool → Option (List Nat × List Bool)
  | 0, bs => some ([], bs)
  | k + 1, bs =>
    match read_length_value bs with
    | none => none
    | some lb =>
      match offset_lengths_loop k lb.2 with
      | none => none
      | some r => some (lb.1 % 256 :: r.1, r.2)

/-- From `read_offset_table` (`lh_new_decoder.c:340`): `OFFSET_BITS`-bit code
count `n`; `n = 0` configures the offset tree as a single raw
`OFFSET_BITS`-bit code; otherwise `n` is clamped to `HISTORY_BITS` and the
lengths are read by `read_length_value`. -/
def read_offset_table (HB OB : Nat) (d : LHANewDecoder) : Option LHANewDecoder :=
  match read_bits OB d.bits with
  | none => none
  | some nb =>
    if nb.1 = 0 then
      match read_bits OB nb.2 with
      | none => none
      | some cb => some { d with bits := cb.2, offset_tree := set_tree_single cb.1 }
    else
      match offset_lengths_loop (min nb.1 HB) nb.2 with
      | none => none
      | some r => some { d with bits := r.2, offset_tree := build_tree r.1 }

/-- From `start_new_block` (`lh_new_decoder.c:392`): 16-bit block length (in
commands), then the temp table, the code table and the offset table; failure
of any sub-read aborts the block start. -/
def start_new_block (HB OB : Nat) (d : LHANewDecoder) : Option LHANewDecoder :=
  match read_bits 16 d.bits with
  | none => none
  | some lb =>
    match read_temp_table { d with block_remaining := lb.1, bits := lb.2 } with
    | none => none
    | some d2 =>
      match read_code_table d2 with
      | none => none
      | some d3 => read_offset_table HB OB d3

/-- The `while (decoder->block_remaining == 0)` loop at the head of
`lha_lh_new_read` (`lh_new_decoder.c:518-522`).  The guard
`d'.bits.length < d.bits.length` exists only to exhibit termination; it is
always true on the `some` branch, because a successful `start_new_block`
begins by consuming a 16-bit block length (proved as part of the claims
below), so the `none` it returns when the guard fails is unreachable. -/
def block_start_loop (HB OB : Nat) (d : LHANewDecoder) : Option LHANewDecoder :=
  if d.block_remaining ≠ 0 then
    some d
  else
    match start_new_block HB OB d with
    | none => none
    | some d' =>
      if h : d'.bits.length < d.bits.length then
        block_start_loop HB OB d'
      else
        none
termination_by d.bits.length
decreasing_by
  exact h

/-- From `read_code` (`lh_new_decoder.c:431`): decode the next command code from
the code tree. -/
def read_code (d : LHANewDecoder) : Option (Nat × List Bool) :=
  read_from_tree d.code_tree d.bits

/-- From `read_offset_code` (`lh_new_decoder.c:439`): decode a symbol `bits` from
the offset tree; 0 and 1 are returned directly, otherwise `bits - 1` raw bits
are read and `1 << (bits - 1)` is added. -/
def read_offset_code (t : HTree) (bs : List Bool) : Option (Nat × List Bool) :=
  match read_from_tree t bs with
  | none => none
  | some bb =>
    if bb.1 = 0 then some (0, bb.2)
    else if bb.1 = 1 then some (1, bb.2)
    else
      match read_bits (bb.1 - 1) bb.2 with
      | none => none
      | some rb => some (rb.1 + (1 <<< (bb.1 - 1)), rb.2)

/-- From `output_byte` (`lh_new_decoder.c:477`): store the byte in the ring buffer
at the write position (the caller maintains `ringbuf_pos < RING_BUFFER_SIZE`,
so the store is in bounds) and advance the position modulo
`RING_BUFFER_SIZE`.  The appending of the byte to the output buffer is done
at the call sites, which return the produced bytes as a list. -/
def output_byte (N : Nat) (d : LHANewDecoder) (b : Nat) : LHANewDecoder :=
  { d with ringbuf := d.ringbuf.set d.ringbuf_pos b,
           ringbuf_pos := (d.ringbuf_pos + 1) % N }

/-- The copy loop of `copy_from_history` (`lh_new_decoder.c:504-507`): for
each of `count` iterations, fetch `ringbuf[(start + i) % RING_BUFFER_SIZE]`
and pass it to `output_byte` (`start` is threaded as `start + i`; the C
computes `(start + i) % RING_BUFFER_SIZE` in 32-bit unsigned arithmetic, and
since `RING_BUFFER_SIZE` divides `2 ^ 32` the extra wrap is the identity on
the reduced index). -/
def copy_loop (N start : Nat) (d : LHANewDecoder) : Nat → List Nat × LHANewDecoder
  | 0 => ([], d)
  | k + 1 =>
    let b := d.ringbuf.getD (start % N) 0
    let r := copy_loop N (start + 1) (output_byte N d b) k
    (b :: r.1, r.2)

/-- From `copy_from_history` (`lh_new_decoder.c:489`): read an offset code; on
failure return with nothing written (the bit stream is exhausted at that
point).  Otherwise `start = ringbuf_pos + RING_BUFFER_SIZE - offset - 1`
computed in 32-bit unsigned arithmetic (`start` and `offset` are C `unsigned
int`s), then copy `count` bytes. -/
def copy_from_history (HB : Nat) (d : LHANewDecoder) (count : Nat) :
    List Nat × LHANewDecoder :=
  match read_offset_code d.offset_tree d.bits with
  | none => ([], { d with bits := [] })
  | some ob =>
    let start := (d.ringbuf_pos + 2 ^ HB + (2 ^ 32 - (ob.1 + 1) % 2 ^ 32)) % 2 ^ 32
    copy_loop (2 ^ HB) start { d with bits := ob.2 } count

/-- From `lha_lh_new_read` (`lh_new_decoder.c:510`): start a new block while
`block_remaining = 0`, decrement `block_remaining`, decode one command code,
and emit either the literal byte or the history copy.  Returns the emitted
bytes (the C function writes them to `buf` and returns their number) and the
updated decoder; every failure path returns no bytes, with the bit reader
exhausted. -/
def lha_lh_new_read (HB OB : Nat) (d : LHANewDecoder) : List Nat × LHANewDecoder :=
  match block_start_loop HB OB d with
  | none => ([], { d with bits := [] })
  | some d1 =>
    let d2 := { d1 with block_remaining := d1.block_remaining - 1 }
    match read_code d2 with
    | none => ([], { d2 with bits := [] })
    | some cb =>
      let d3 := { d2 with bits := cb.2 }
      if cb.1 < 256 then
        ([cb.1], output_byte (2 ^ HB) d3 cb.1)
      else
        copy_from_history HB d3 (cb.1 - 256 + 3)

/-- Follows the spec's words (the refinement side of claim C1, §4.4): "Source
start in the ring buffer is `start = (ringbuf_pos + RING_BUFFER_SIZE − offset
− 1) mod RING_BUFFER_SIZE`.  Copy `count` bytes sequentially, each byte
`ringbuf[(start + i) mod RING_BUFFER_SIZE]`, emitting each to both output and
ring buffer."  Returns (output bytes, final ring buffer, final write
position); `start` is threaded as `start + i`. -/
def spec_copy_bytes (N : Nat) (ring : List Nat) (pos start : Nat) :
    Nat → List Nat × List Nat × Nat
  | 0 => ([], ring, pos)
  | k + 1 =>
    let b := ring.getD (start % N) 0
    let r := spec_copy_bytes N (ring.set pos b) ((pos + 1) % N) (start + 1) k
    (b :: r.1, r.2)

/-- A decoder state with everything explicit, used to instantiate theorems
on concrete inputs. -/
def mk_decoder (bs : List Bool) (ring : List Nat) (pos rem : Nat)
    (ct ot : HTree) : LHANewDecoder :=
  { bits := bs, ringbuf := ring, ringbuf_pos := pos, block_remaining := rem,
    code_tree := ct, offset_tree := ot }

/-! ## Helper lemmas: the bit reader -/

theorem bits_to_nat_aux_lt (l : List Bool) :
    ∀ a : Nat, l.foldl (fun a b => 2 * a + (if b then 1 else 0)) a < (a + 1) * 2 ^ l.length := by
  induction l with
  | nil => intro a; simpa using Nat.lt_succ_self a
  | cons b rest ih =>
    intro a
    have h1 := ih (2 * a + (if b then 1 else 0))
    have hb : (if b then 1 else 0) ≤ 1 := by split <;> omega
    calc List.foldl (fun a b => 2 * a + (if b then 1 else 0)) (2 * a + (if b then 1 else 0)) rest
        < (2 * a + (if b then 1 else 0) + 1) * 2 ^ rest.length := h1
      _ ≤ (a + 1) * 2 ^ (b :: rest).length := by
          simp only [List.length_cons, Nat.pow_succ]
          nlinarith [Nat.pos_pow_of_pos rest.length (show 0 < 2 by omega)]

theorem bits_to_nat_lt (l : List Bool) : bits_to_nat l < 2 ^ l.length := by
  have := bits_to_nat_aux_lt l 0
  simpa [bits_to_nat] using this

theorem read_bits_eq {n : Nat} {bs : List Bool} {vb : Nat × List Bool}
    (h : read_bits n bs = some vb) :
    n ≤ bs.length ∧ vb.1 = bits_to_nat (bs.take n) ∧ vb.2 = bs.drop n := by
  unfold read_bits at h
  split at h
  · simp only [Option.some.injEq] at h
    subst h
    simp_all
  · exact absurd h (by simp)

theorem read_bits_len {n : Nat} {bs : List Bool} {vb : Nat × List Bool}
    (h : read_bits n bs = some vb) : vb.2.length + n = bs.length := by
  obtain ⟨h1, _, h3⟩ := read_bits_eq h
  rw [h3]
  simp
  omega

theorem read_bits_lt {n : Nat} {bs : List Bool} {vb : Nat × List Bool}
    (h : read_bits n bs = some vb) : vb.1 < 2 ^ n := by
  obtain ⟨h1, h2, _⟩ := read_bits_eq h
  rw [h2]
  have := bits_to_nat_lt (bs.take n)
  have hlen : (bs.take n).length = n := by simp; omega
  rwa [hlen] at this

theorem read_length_ext_len {m : Nat} {bs : List Bool} {lb : Nat × List Bool}
    (h : read_length_ext m bs = some lb) : lb.2.length ≤ bs.length := by
  induction bs generalizing m with
  | nil => exact absurd h (by simp [read_length_ext])
  | cons b rest ih =>
    unfold read_length_ext at h
    split at h
    · have := ih h
      simp
      omega
    · simp only [Option.some.injEq] at h
      subst h
      simp

theorem read_length_value_len {bs : List Bool} {lb : Nat × List Bool}
    (h : read_length_value bs = some lb) : lb.2.length + 3 ≤ bs.length := by
  unfold read_length_value at h
  cases h3 : read_bits 3 bs with
  | none => exact absurd h (by simp [h3])
  | some vb =>
    simp only [h3] at h
    have hl := read_bits_len h3
    split at h
    · have := read_length_ext_len h
      omega
    · simp only [Option.some.injEq] at h
      subst h
      omega

theorem read_from_tree_len {t : HTree} {bs : List Bool} {sb : Nat × List Bool}
    (h : read_from_tree t bs = some sb) : sb.2.length ≤ bs.length := by
  induction t generalizing bs with
  | empty => exact absurd h (by simp [read_from_tree])
  | leaf s => unfold read_from_tree at h; simp only [Option.some.injEq] at h; subst h; simp
  | single s => unfold read_from_tree at h; simp only [Option.some.injEq] at h; subst h; simp
  | node l r ihl ihr =>
    cases bs with
    | nil => exact absurd h (by simp [read_from_tree])
    | cons b rest =>
      unfold read_from_tree at h
      split at h
      · have := ihr h; simp; omega
      · have := ihl h; simp; omega

theorem read_from_tree_below {B : Nat} {t : HTree} {bs : List Bool} {sb : Nat × List Bool}
    (hB : tree_syms_below B t = true) (h : read_from_tree t bs = some sb) : sb.1 < B := by
  induction t generalizing bs with
  | empty => exact absurd h (by simp [read_from_tree])
  | leaf s =>
    unfold read_from_tree at h
    simp only [Option.some.injEq] at h
    subst h
    simpa [tree_syms_below] using hB
  | single s =>
    unfold read_from_tree at h
    simp only [Option.some.injEq] at h
    subst h
    simpa [tree_syms_below] using hB
  | node l r ihl ihr =>
    cases bs with
    | nil => exact absurd h (by simp [read_from_tree])
    | cons b rest =>
      simp only [tree_syms_below, Bool.and_eq_true] at hB
      unfold read_from_tree at h
      split at h
      · exact ihr hB.2 h
      · exact ihl hB.1 h

theorem read_skip_count_pos {c : Nat} {bs : List Bool} {sb : Nat × List Bool}
    (h : read_skip_count c bs = some sb) : 1 ≤ sb.1 := by
  unfold read_skip_count at h
  split at h
  · simp only [Option.some.injEq] at h; subst h; simp
  · split at h
    · cases h4 : read_bits 4 bs with
      | none => rw [h4] at h; exact absurd h (by simp)
      | some rb =>
        rw [h4] at h
        simp only [Option.some.injEq] at h
        subst h
        simp
    · cases h9 : read_bits 9 bs with
      | none => rw [h9] at h; exact absurd h (by simp)
      | some rb =>
        rw [h9] at h
        simp only [Option.some.injEq] at h
        subst h
        simp

theorem read_skip_count_len {c : Nat} {bs : List Bool} {sb : Nat × List Bool}
    (h : read_skip_count c bs = some sb) : sb.2.length ≤ bs.length := by
  unfold read_skip_count at h
  split at h
  · simp only [Option.some.injEq] at h; subst h; simp
  · split at h
    · cases h4 : read_bits 4 bs with
      | none => rw [h4] at h; exact absurd h (by simp)
      | some rb =>
        rw [h4] at h
        simp only [Option.some.injEq] at h
        subst h
        have := read_bits_len h4
        simp
        omega
    · cases h9 : read_bits 9 bs with
      | none => rw [h9] at h; exact absurd h (by simp)
      | some rb =>
        rw [h9] at h
        simp only [Option.some.injEq] at h
        subst h
        have := read_bits_len h9
        simp
        omega

/-! ## Helper lemmas: bit consumption of the table readers -/

theorem temp_table_loop_len {n i : Nat} {cl : List Nat} {ws : List (Nat × Nat)}
    {bs : List Bool} {r : List Nat × List (Nat × Nat) × List Bool}
    (h : temp_table_loop n i cl ws bs = some r) : r.2.2.length ≤ bs.length := by
  induction i, cl, ws, bs using temp_table_loop.induct (n := n) generalizing r with
  | case1 i cl ws bs hin hnone =>
    rw [temp_table_loop.eq_def] at h
    simp only [if_pos hin, hnone] at h
    exact absurd h (by simp)
  | case2 cl ws bs lb hlb hnone h2n =>
    rw [temp_table_loop.eq_def] at h
    simp only [if_pos h2n, hlb, hnone, if_true] at h
    exact absurd h (by simp)
  | case3 cl ws bs lb hlb sb hsb h2n ih =>
    rw [temp_table_loop.eq_def] at h
    simp only [if_pos h2n, hlb, hsb, if_true] at h
    have h1 := read_length_value_len hlb
    have h2 := read_bits_len hsb
    have h3 := ih h
    omega
  | case4 i cl ws bs hin lb hlb hi2 ih =>
    rw [temp_table_loop.eq_def] at h
    simp only [if_pos hin, hlb, if_neg hi2] at h
    have h1 := read_length_value_len hlb
    have h3 := ih h
    omega
  | case5 i cl ws bs hin =>
    rw [temp_table_loop.eq_def] at h
    simp only [if_neg hin, Option.some.injEq] at h
    subst h
    exact Nat.le_refl _

theorem code_table_loop_len {t : HTree} {n i : Nat} {cl : List Nat}
    {bs : List Bool} {r : List Nat × List Bool}
    (h : code_table_loop t n i cl bs = some r) : r.2.length ≤ bs.length := by
  induction i, cl, bs using code_table_loop.induct (t := t) (n := n) generalizing r with
  | case1 i cl bs hin hnone =>
    rw [code_table_loop.eq_def] at h
    simp only [dif_pos hin, hnone] at h
    exact absurd h (by simp)
  | case2 i cl bs hin cb hcb hle hnone =>
    rw [code_table_loop.eq_def] at h
    simp only [dif_pos hin, hcb, if_pos hle] at h
    split at h
    · exact absurd h (by simp)
    · rename_i sb heq
      rw [hnone] at heq
      exact absurd heq (by simp)
  | case3 i cl bs hin cb hcb hle sb hsb ih =>
    rw [code_table_loop.eq_def] at h
    simp only [dif_pos hin, hcb, if_pos hle] at h
    split at h
    · rename_i heq
      rw [hsb] at heq
      exact absurd heq (by simp)
    · rename_i sb2 heq
      rw [hsb] at heq
      simp only [Option.some.injEq] at heq
      subst heq
      have h1 := read_from_tree_len hcb
      have h2 := read_skip_count_len hsb
      have h3 := ih h
      omega
  | case4 i cl bs hin cb hcb hgt ih =>
    rw [code_table_loop.eq_def] at h
    simp only [dif_pos hin, hcb, if_neg hgt] at h
    have h1 := read_from_tree_len hcb
    have h3 := ih h
    omega
  | case5 i cl bs hin =>
    rw [code_table_loop.eq_def] at h
    simp only [dif_neg hin, Option.some.injEq] at h
    subst h
    exact Nat.le_refl _

theorem offset_lengths_loop_len {k : Nat} {bs : List Bool} {r : List Nat × List Bool}
    (h : offset_lengths_loop k bs = some r) : r.2.length ≤ bs.length := by
  induction k generalizing bs r with
  | zero =>
    unfold offset_lengths_loop at h
    simp only [Option.some.injEq] at h
    subst h
    exact Nat.le_refl _
  | succ k ih =>
    unfold offset_lengths_loop at h
    cases hlb : read_length_value bs with
    | none => exact absurd h (by simp [hlb])
    | some lb =>
      simp only [hlb] at h
      cases hr : offset_lengths_loop k lb.2 with
      | none => exact absurd h (by simp [hr])
      | some r2 =>
        simp only [hr, Option.some.injEq] at h
        subst h
        have h1 := read_length_value_len hlb
        have h2 := ih hr
        simp only []
        omega

theorem read_temp_table_len {d : LHANewDecoder} {d2 : LHANewDecoder}
    (h : read_temp_table d = some d2) : d2.bits.length ≤ d.bits.length := by
  unfold read_temp_table at h
  cases hnb : read_bits 5 d.bits with
  | none => exact absurd h (by simp [hnb])
  | some nb =>
    simp only [hnb] at h
    have h1 := read_bits_len hnb
    split at h
    · cases hcb : read_bits 5 nb.2 with
      | none => exact absurd h (by simp [hcb])
      | some cb =>
        simp only [hcb, Option.some.injEq] at h
        have h2 := read_bits_len hcb
        subst h
        simp only []
        omega
    · cases htl : temp_table_loop (min nb.1 20) 0 (List.replicate 20 0) [] nb.2 with
      | none =>
        rw [htl] at h
        simp at h
      | some r =>
        rw [htl] at h
        simp only [Option.some.injEq] at h
        have h2 := temp_table_loop_len htl
        subst h
        simp only []
        omega

theorem read_code_table_len {d : LHANewDecoder} {d2 : LHANewDecoder}
    (h : read_code_table d = some d2) : d2.bits.length ≤ d.bits.length := by
  unfold read_code_table at h
  cases hnb : read_bits 9 d.bits with
  | none => exact absurd h (by simp [hnb])
  | some nb =>
    simp only [hnb] at h
    have h1 := read_bits_len hnb
    split at h
    · cases hcb : read_bits 9 nb.2 with
      | none => exact absurd h (by simp [hcb])
      | some cb =>
        simp only [hcb, Option.some.injEq] at h
        have h2 := read_bits_len hcb
        subst h
        simp only []
        omega
    · cases htl : code_table_loop d.offset_tree (min nb.1 510) 0 (List.replicate 510 0) nb.2 with
      | none =>
        rw [htl] at h
        simp at h
      | some r =>
        rw [htl] at h
        simp only [Option.some.injEq] at h
        have h2 := code_table_loop_len htl
        subst h
        simp only []
        omega

theorem read_offset_table_len {HB OB : Nat} {d : LHANewDecoder} {d2 : LHANewDecoder}
    (h : read_offset_table HB OB d = some d2) : d2.bits.length ≤ d.bits.length := by
  unfold read_offset_table at h
  cases hnb : read_bits OB d.bits with
  | none => exact absurd h (by simp [hnb])
  | some nb =>
    simp only [hnb] at h
    have h1 := read_bits_len hnb
    split at h
    · cases hcb : read_bits OB nb.2 with
      | none => exact absurd h (by simp [hcb])
      | some cb =>
        simp only [hcb, Option.some.injEq] at h
        have h2 := read_bits_len hcb
        subst h
        simp only []
        omega
    · cases htl : offset_lengths_loop (min nb.1 HB) nb.2 with
      | none => exact absurd h (by simp [htl])
      | some r =>
        simp only [htl, Option.some.injEq] at h
        have h2 := offset_lengths_loop_len htl
        subst h
        simp only []
        omega

theorem start_new_block_len {HB OB : Nat} {d d' : LHANewDecoder}
    (h : start_new_block HB OB d = some d') : d'.bits.length + 16 ≤ d.bits.length := by
  unfold start_new_block at h
  cases hlb : read_bits 16 d.bits with
  | none => exact absurd h (by simp [hlb])
  | some lb =>
    simp only [hlb] at h
    have h1 := read_bits_len hlb
    cases h2 : read_temp_table { d with block_remaining := lb.1, bits := lb.2 } with
    | none => exact absurd h (by simp [h2])
    | some d2 =>
      simp only [h2] at h
      have hl2 := read_temp_table_len h2
      cases h3 : read_code_table d2 with
      | none => exact absurd h (by simp [h3])
      | some d3 =>
        simp only [h3] at h
        have hl3 := read_code_table_len h3
        have hl4 := read_offset_table_len h
        simp only [] at hl2
        omega

/-! ## Helper lemmas: symbol bounds of built trees -/

theorem idx_nonzero_mem {L : List Nat} {i : Nat} {p : Nat × Nat}
    (h : p ∈ idx_nonzero L i) : p.1 < i + L.length := by
  induction L generalizing i with
  | nil => exact absurd h (by simp [idx_nonzero])
  | cons l rest ih =>
    unfold idx_nonzero at h
    split at h
    · have := ih h
      simp only [List.length_cons]
      omega
    · rcases List.mem_cons.1 h with h1 | h1
      · subst h1
        simp
      · have := ih h1
        simp only [List.length_cons]
        omega

theorem canon_insert_mem {a b : Nat × Nat} {l : List (Nat × Nat)}
    (h : b ∈ canon_insert a l) : b = a ∨ b ∈ l := by
  induction l with
  | nil => simpa [canon_insert] using h
  | cons c rest ih =>
    unfold canon_insert at h
    split at h
    · rcases List.mem_cons.1 h with h1 | h1
      · exact Or.inl h1
      · exact Or.inr h1
    · rcases List.mem_cons.1 h with h1 | h1
      · exact Or.inr (List.mem_cons.2 (Or.inl h1))
      · rcases ih h1 with h2 | h2
        · exact Or.inl h2
        · exact Or.inr (List.mem_cons.2 (Or.inr h2))

theorem canon_sort_mem {a : Nat × Nat} {l : List (Nat × Nat)}
    (h : a ∈ canon_sort l) : a ∈ l := by
  induction l with
  | nil => simpa [canon_sort] using h
  | cons b rest ih =>
    unfold canon_sort at h
    rcases canon_insert_mem h with h1 | h1
    · exact h1 ▸ List.mem_cons_self _ _
    · exact List.mem_cons.2 (Or.inr (ih h1))

theorem assign_codes_mem {l : List (Nat × Nat)} {pl nc : Nat} {q : Nat × Nat × Nat}
    (h : q ∈ assign_codes l pl nc) : ∃ len, (q.1, len) ∈ l := by
  induction l generalizing pl nc with
  | nil => exact absurd h (by simp [assign_codes])
  | cons a rest ih =>
    obtain ⟨s, len⟩ := a
    unfold assign_codes at h
    rcases List.mem_cons.1 h with h1 | h1
    · subst h1
      exact ⟨len, List.mem_cons_self _ _⟩
    · obtain ⟨len2, h2⟩ := ih h1
      exact ⟨len2, List.mem_cons.2 (Or.inr h2)⟩

theorem insert_sym_below {B : Nat} {t : HTree} {code : List Bool} {s : Nat}
    (ht : tree_syms_below B t = true) (hs : s < B) :
    tree_syms_below B (insert_sym t code s) = true := by
  induction t generalizing code with
  | empty =>
    induction code with
    | nil => simpa [insert_sym, tree_syms_below]
    | cons b rest ihc =>
      unfold insert_sym
      split <;> simp [tree_syms_below, ihc]
  | leaf s2 =>
    cases code <;> simpa [insert_sym] using ht
  | single s2 =>
    cases code <;> simpa [insert_sym] using ht
  | node l r ihl ihr =>
    simp only [tree_syms_below, Bool.and_eq_true] at ht
    cases code with
    | nil => simpa [insert_sym, tree_syms_below] using ht
    | cons b rest =>
      unfold insert_sym
      split
      · simp [tree_syms_below, ht.1, ihr ht.2]
      · simp [tree_syms_below, ht.2, ihl ht.1]

theorem build_tree_below {lengths : List Nat} {B : Nat} (hB : lengths.length ≤ B) :
    tree_syms_below B (build_tree lengths) = true := by
  unfold build_tree
  have hmem : ∀ q ∈ assign_codes (canon_sort (idx_nonzero lengths 0)) 0 0, q.1 < B := by
    intro q hq
    obtain ⟨len, h1⟩ := assign_codes_mem hq
    have h2 := canon_sort_mem h1
    have h3 := idx_nonzero_mem h2
    simp only [Nat.zero_add] at h3
    omega
  have main : ∀ (codes : List (Nat × Nat × Nat)) (t : HTree),
      tree_syms_below B t = true → (∀ q ∈ codes, q.1 < B) →
      tree_syms_below B
        (codes.foldl (fun t slc => insert_sym t (code_bits slc.2.1 slc.2.2) slc.1) t) = true := by
    intro codes
    induction codes with
    | nil =>
      intro t ht _
      simpa using ht
    | cons q rest ih =>
      intro t ht hm
      simp only [List.foldl_cons]
      exact ih _ (insert_sym_below ht (hm q (List.mem_cons_self _ _)))
        (fun q2 hq2 => hm q2 (List.mem_cons.2 (Or.inr hq2)))
  exact main _ _ (by simp [tree_syms_below]) hmem

/-! ## Helper lemmas: the block-start loop -/

theorem read_code_table_below {d d2 : LHANewDecoder}
    (h : read_code_table d = some d2) : tree_syms_below 512 d2.code_tree = true := by
  unfold read_code_table at h
  cases hnb : read_bits 9 d.bits with
  | none => exact absurd h (by simp [hnb])
  | some nb =>
    simp only [hnb] at h
    split at h
    · cases hcb : read_bits 9 nb.2 with
      | none => exact absurd h (by simp [hcb])
      | some cb =>
        simp only [hcb, Option.some.injEq] at h
        subst h
        have hlt := read_bits_lt hcb
        norm_num at hlt
        simp only [set_tree_single, tree_syms_below, decide_eq_true_eq]
        omega
    · cases htl : code_table_loop d.offset_tree (min nb.1 510) 0 (List.replicate 510 0) nb.2 with
      | none =>
        rw [htl] at h
        simp at h
      | some r =>
        rw [htl] at h
        simp only [Option.some.injEq] at h
        subst h
        simp only []
        exact build_tree_below (by simp)

theorem read_offset_table_code_tree {HB OB : Nat} {d d2 : LHANewDecoder}
    (h : read_offset_table HB OB d = some d2) : d2.code_tree = d.code_tree := by
  unfold read_offset_table at h
  cases hnb : read_bits OB d.bits with
  | none => exact absurd h (by simp [hnb])
  | some nb =>
    simp only [hnb] at h
    split at h
    · cases hcb : read_bits OB nb.2 with
      | none => exact absurd h (by simp [hcb])
      | some cb =>
        simp only [hcb, Option.some.injEq] at h
        subst h
        rfl
    · cases htl : offset_lengths_loop (min nb.1 HB) nb.2 with
      | none => exact absurd h (by simp [htl])
      | some r =>
        simp only [htl, Option.some.injEq] at h
        subst h
        rfl

theorem start_new_block_below {HB OB : Nat} {d d' : LHANewDecoder}
    (h : start_new_block HB OB d = some d') :
    tree_syms_below 512 d'.code_tree = true := by
  unfold start_new_block at h
  cases hlb : read_bits 16 d.bits with
  | none => exact absurd h (by simp [hlb])
  | some lb =>
    simp only [hlb] at h
    cases h2 : read_temp_table { d with block_remaining := lb.1, bits := lb.2 } with
    | none => exact absurd h (by simp [h2])
    | some d2 =>
      simp only [h2] at h
      cases h3 : read_code_table d2 with
      | none => exact absurd h (by simp [h3])
      | some d3 =>
        simp only [h3] at h
        have hb := read_code_table_below h3
        rw [read_offset_table_code_tree h]
        exact hb

theorem read_temp_table_ring {d d2 : LHANewDecoder} (h : read_temp_table d = some d2) :
    d2.ringbuf = d.ringbuf ∧ d2.ringbuf_pos = d.ringbuf_pos ∧
    d2.block_remaining = d.block_remaining := by
  unfold read_temp_table at h
  cases hnb : read_bits 5 d.bits with
  | none => exact absurd h (by simp [hnb])
  | some nb =>
    simp only [hnb] at h
    split at h
    · cases hcb : read_bits 5 nb.2 with
      | none => exact absurd h (by simp [hcb])
      | some cb =>
        simp only [hcb, Option.some.injEq] at h
        subst h
        exact ⟨rfl, rfl, rfl⟩
    · cases htl : temp_table_loop (min nb.1 20) 0 (List.replicate 20 0) [] nb.2 with
      | none =>
        rw [htl] at h
        simp at h
      | some r =>
        rw [htl] at h
        simp only [Option.some.injEq] at h
        subst h
        exact ⟨rfl, rfl, rfl⟩

theorem read_code_table_ring {d d2 : LHANewDecoder} (h : read_code_table d = some d2) :
    d2.ringbuf = d.ringbuf ∧ d2.ringbuf_pos = d.ringbuf_pos ∧
    d2.block_remaining = d.block_remaining := by
  unfold read_code_table at h
  cases hnb : read_bits 9 d.bits with
  | none => exact absurd h (by simp [hnb])
  | some nb =>
    simp only [hnb] at h
    split at h
    · cases hcb : read_bits 9 nb.2 with
      | none => exact absurd h (by simp [hcb])
      | some cb =>
        simp only [hcb, Option.some.injEq] at h
        subst h
        exact ⟨rfl, rfl, rfl⟩
    · cases htl : code_table_loop d.offset_tree (min nb.1 510) 0 (List.replicate 510 0) nb.2 with
      | none =>
        rw [htl] at h
        simp at h
      | some r =>
        rw [htl] at h
        simp only [Option.some.injEq] at h
        subst h
        exact ⟨rfl, rfl, rfl⟩

theorem read_offset_table_ring {HB OB : Nat} {d d2 : LHANewDecoder}
    (h : read_offset_table HB OB d = some d2) :
    d2.ringbuf = d.ringbuf ∧ d2.ringbuf_pos = d.ringbuf_pos ∧
    d2.block_remaining = d.block_remaining := by
  unfold read_offset_table at h
  cases hnb : read_bits OB d.bits with
  | none => exact absurd h (by simp [hnb])
  | some nb =>
    simp only [hnb] at h
    split at h
    · cases hcb : read_bits OB nb.2 with
      | none => exact absurd h (by simp [hcb])
      | some cb =>
        simp only [hcb, Option.some.injEq] at h
        subst h
        exact ⟨rfl, rfl, rfl⟩
    · cases htl : offset_lengths_loop (min nb.1 HB) nb.2 with
      | none => exact absurd h (by simp [htl])
      | some r =>
        simp only [htl, Option.some.injEq] at h
        subst h
        exact ⟨rfl, rfl, rfl⟩

theorem start_new_block_ring {HB OB : Nat} {d d' : LHANewDecoder}
    (h : start_new_block HB OB d = some d') :
    d'.ringbuf = d.ringbuf ∧ d'.ringbuf_pos = d.ringbuf_pos := by
  unfold start_new_block at h
  cases hlb : read_bits 16 d.bits with
  | none => exact absurd h (by simp [hlb])
  | some lb =>
    simp only [hlb] at h
    cases h2 : read_temp_table { d with block_remaining := lb.1, bits := lb.2 } with
    | none => exact absurd h (by simp [h2])
    | some d2 =>
      simp only [h2] at h
      have r2 := read_temp_table_ring h2
      cases h3 : read_code_table d2 with
      | none => exact absurd h (by simp [h3])
      | some d3 =>
        simp only [h3] at h
        have r3 := read_code_table_ring h3
        have r4 := read_offset_table_ring h
        simp only [] at r2
        exact ⟨by rw [r4.1, r3.1, r2.1], by rw [r4.2.1, r3.2.1, r2.2.1]⟩

theorem block_start_loop_remaining {HB OB : Nat} {d d' : LHANewDecoder}
    (h : block_start_loop HB OB d = some d') : d'.block_remaining ≠ 0 := by
  induction d using block_start_loop.induct HB OB generalizing d' with
  | case1 x hx =>
    rw [block_start_loop.eq_def] at h
    simp only [if_pos hx, Option.some.injEq] at h
    subst h
    exact hx
  | case2 x hx hnone =>
    rw [block_start_loop.eq_def] at h
    simp only [if_neg hx, hnone] at h
    exact absurd h (by simp)
  | case3 x hx d3 hsnb hdec ih =>
    rw [block_start_loop.eq_def] at h
    simp only [if_neg hx, hsnb, dif_pos hdec] at h
    exact ih h
  | case4 x hx d3 hsnb hdec =>
    rw [block_start_loop.eq_def] at h
    simp only [if_neg hx, hsnb, dif_neg hdec] at h
    exact absurd h (by simp)

theorem block_start_loop_ring {HB OB : Nat} {d d' : LHANewDecoder}
    (h : block_start_loop HB OB d = some d') :
    d'.ringbuf = d.ringbuf ∧ d'.ringbuf_pos = d.ringbuf_pos := by
  induction d using block_start_loop.induct HB OB generalizing d' with
  | case1 x hx =>
    rw [block_start_loop.eq_def] at h
    simp only [if_pos hx, Option.some.injEq] at h
    subst h
    exact ⟨rfl, rfl⟩
  | case2 x hx hnone =>
    rw [block_start_loop.eq_def] at h
    simp only [if_neg hx, hnone] at h
    exact absurd h (by simp)
  | case3 x hx d3 hsnb hdec ih =>
    rw [block_start_loop.eq_def] at h
    simp only [if_neg hx, hsnb, dif_pos hdec] at h
    have h1 := ih h
    have h2 := start_new_block_ring hsnb
    exact ⟨h1.1.trans h2.1, h1.2.trans h2.2⟩
  | case4 x hx d3 hsnb hdec =>
    rw [block_start_loop.eq_def] at h
    simp only [if_neg hx, hsnb, dif_neg hdec] at h
    exact absurd h (by simp)

theorem block_start_loop_below {HB OB : Nat} {d d' : LHANewDecoder}
    (hrem : d.block_remaining = 0) (h : block_start_loop HB OB d = some d') :
    tree_syms_below 512 d'.code_tree = true := by
  induction d using block_start_loop.induct HB OB generalizing d' with
  | case1 x hx => exact absurd hrem hx
  | case2 x hx hnone =>
    rw [block_start_loop.eq_def] at h
    simp only [if_neg hx, hnone] at h
    exact absurd h (by simp)
  | case3 x hx d3 hsnb hdec ih =>
    rw [block_start_loop.eq_def] at h
    simp only [if_neg hx, hsnb, dif_pos hdec] at h
    by_cases h3 : d3.block_remaining = 0
    · exact ih h3 h
    · rw [block_start_loop.eq_def, if_pos h3] at h
      simp only [Option.some.injEq] at h
      subst h
      exact start_new_block_below hsnb
  | case4 x hx d3 hsnb hdec =>
    rw [block_start_loop.eq_def] at h
    simp only [if_neg hx, hsnb, dif_neg hdec] at h
    exact absurd h (by simp)

/-! ## Helper lemmas: the copy loop -/

theorem copy_loop_len {N start : Nat} {d : LHANewDecoder} {count : Nat} :
    (copy_loop N start d count).1.length = count := by
  induction count generalizing start d with
  | zero => simp [copy_loop]
  | succ k ih => simp [copy_loop, ih]

theorem copy_loop_state {N start : Nat} {d : LHANewDecoder} {count : Nat} :
    (copy_loop N start d count).2.bits = d.bits ∧
    (copy_loop N start d count).2.block_remaining = d.block_remaining ∧
    (copy_loop N start d count).2.ringbuf.length = d.ringbuf.length := by
  induction count generalizing start d with
  | zero => simp [copy_loop]
  | succ k ih =>
    simp only [copy_loop]
    refine ⟨ih.1.trans ?_, ih.2.1.trans ?_, ih.2.2.trans ?_⟩ <;> simp [output_byte]

theorem copy_loop_pos {N start : Nat} {d : LHANewDecoder} {count : Nat}
    (hN : 0 < N) (hpos : d.ringbuf_pos < N) :
    (copy_loop N start d count).2.ringbuf_pos < N := by
  induction count generalizing start d with
  | zero => simpa [copy_loop] using hpos
  | succ k ih =>
    simp only [copy_loop]
    exact ih (d := output_byte N d _) (Nat.mod_lt _ hN)

/-- The copy loop agrees with the spec-side copy whenever the two `start`
values are congruent modulo the ring size. -/
theorem copy_loop_spec {N : Nat} {count : Nat} :
    ∀ {cstart sstart : Nat} {d : LHANewDecoder},
    cstart % N = sstart % N →
    (copy_loop N cstart d count).1 =
      (spec_copy_bytes N d.ringbuf d.ringbuf_pos sstart count).1 ∧
    (copy_loop N cstart d count).2.ringbuf =
      (spec_copy_bytes N d.ringbuf d.ringbuf_pos sstart count).2.1 ∧
    (copy_loop N cstart d count).2.ringbuf_pos =
      (spec_copy_bytes N d.ringbuf d.ringbuf_pos sstart count).2.2 := by
  induction count with
  | zero =>
    intro cstart sstart d hmod
    simp [copy_loop, spec_copy_bytes]
  | succ k ih =>
    intro cstart sstart d hmod
    have hmod2 : (cstart + 1) % N = (sstart + 1) % N :=
      Nat.ModEq.add_right 1 hmod
    simp only [copy_loop, spec_copy_bytes]
    rw [hmod]
    have step := @ih (cstart + 1) (sstart + 1)
      (output_byte N d (d.ringbuf.getD (sstart % N) 0)) hmod2
    simp only [output_byte] at step
    exact ⟨congrArg (List.cons _) step.1, step.2.1, step.2.2⟩

/-- The values `2 ^ k + x` and `2 ^ k ||| x` agree when `x` has fewer than `k + 1`
bits: the form `read_offset_code` computes versus the form the spec and the
source comment state. -/
theorem two_pow_add_eq_lor {x k : Nat} (h : x < 2 ^ k) : 2 ^ k + x = 2 ^ k ||| x := by
  apply Nat.eq_of_testBit_eq
  intro i
  rcases Nat.lt_trichotomy i k with hik | hik | hik
  · rw [Nat.testBit_two_pow_add_gt hik, Nat.testBit_or,
      Nat.testBit_two_pow_of_ne (by omega), Bool.false_or]
  · subst hik
    rw [Nat.testBit_two_pow_add_eq, Nat.testBit_or, Nat.testBit_two_pow_self,
      Nat.testBit_lt_two_pow h, Bool.true_or]
    rfl
  · have h1 : 2 ^ k + x < 2 ^ i := by
      have h2 : 2 ^ (k + 1) ≤ 2 ^ i := Nat.pow_le_pow_right (by omega) (by omega)
      have h3 : 2 ^ k + x < 2 ^ (k + 1) := by
        rw [Nat.pow_succ]
        omega
      omega
    rw [Nat.testBit_lt_two_pow h1, Nat.testBit_or,
      Nat.testBit_two_pow_of_ne (by omega), Nat.testBit_lt_two_pow (by omega), Bool.or_self]

/-- The `unsigned int` computation of `start` in `copy_from_history` is
congruent, modulo the ring size, to the mathematical
`ringbuf_pos + RING_BUFFER_SIZE - offset - 1` of the spec (the ring size
divides `2 ^ 32`). -/
theorem copy_start_mod {HB pos offset : Nat} (hHB : HB ≤ 32) :
    ((pos + 2 ^ HB + (2 ^ 32 - (offset + 1) % 2 ^ 32)) % 2 ^ 32) % 2 ^ HB =
      (((pos : Int) + (2 ^ HB : Nat) - offset - 1) % ((2 ^ HB : Nat) : Int)).toNat % 2 ^ HB := by
  have hdvd : (2 : Nat) ^ HB ∣ 2 ^ 32 := Nat.pow_dvd_pow 2 hHB
  rw [Nat.mod_mod_of_dvd _ hdvd]
  set N : Nat := 2 ^ HB with hNdef
  have hNpos : 0 < N := by positivity
  have hNposZ : (0 : Int) < (N : Int) := by exact_mod_cast hNpos
  have hdvdZ : ((N : Int)) ∣ (((2 : Nat) ^ 32 : Nat) : Int) := Int.natCast_dvd_natCast.2 hdvd
  set r : Nat := (offset + 1) % 2 ^ 32 with hrdef
  have hrle : r ≤ 2 ^ 32 := Nat.le_of_lt (Nat.mod_lt _ (by norm_num))
  have modeq32 : (((2 : Nat) ^ 32 : Nat) : Int) ≡ 0 [ZMOD (N : Int)] := by
    unfold Int.ModEq
    rw [Int.zero_emod, Int.emod_eq_zero_of_dvd hdvdZ]
  have modeqr : ((r : Int)) ≡ ((offset : Int) + 1) [ZMOD (N : Int)] := by
    unfold Int.ModEq
    have hc : (r : Int) = ((offset : Int) + 1) % (((2 : Nat) ^ 32 : Nat) : Int) := by
      rw [hrdef, Int.natCast_mod, Nat.cast_add, Nat.cast_one]
    rw [hc, Int.emod_emod_of_dvd _ hdvdZ]
  have hAcast : (((pos + N + (2 ^ 32 - r)) : Nat) : Int)
      = ((pos : Int) + (N : Int)) + ((((2 : Nat) ^ 32 : Nat) : Int) - (r : Int)) := by
    rw [Nat.cast_add, Nat.cast_add, Int.ofNat_sub hrle]
  have hmodeq : (((pos + N + (2 ^ 32 - r)) : Nat) : Int)
      ≡ ((pos : Int) + (N : Int) - offset - 1) [ZMOD (N : Int)] := by
    rw [hAcast]
    have h3 := (Int.ModEq.refl ((pos : Int) + (N : Int))).add (modeq32.sub modeqr)
    have h4 : (pos : Int) + (N : Int) + (0 - ((offset : Int) + 1))
        = (pos : Int) + (N : Int) - offset - 1 := by ring
    rw [h4] at h3
    exact h3
  have hZ : (((pos + N + (2 ^ 32 - r)) % N : Nat) : Int)
      = ((pos : Int) + (N : Int) - offset - 1) % (N : Int) := by
    have h5 : (((pos + N + (2 ^ 32 - r)) % N : Nat) : Int)
        = (((pos + N + (2 ^ 32 - r)) : Nat) : Int) % (N : Int) := Int.natCast_mod _ _
    rw [h5]
    exact hmodeq
  have hfinal : (pos + N + (2 ^ 32 - r)) % N
      = (((pos : Int) + (N : Int) - offset - 1) % (N : Int)).toNat := by
    have h6 := congrArg Int.toNat hZ
    simpa using h6
  rw [hfinal]
  have hlt : (((pos : Int) + (N : Int) - offset - 1) % (N : Int)).toNat < N := by
    have h1 := Int.emod_lt_of_pos ((pos : Int) + (N : Int) - offset - 1) hNposZ
    have h2 := Int.emod_nonneg ((pos : Int) + (N : Int) - offset - 1) (ne_of_gt hNposZ)
    omega
  rw [Nat.mod_eq_of_lt hlt]

/-! ## Remaining helper lemmas -/

theorem zero_range_getD (cl : List Nat) (start cnt j : Nat) :
    (zero_range cl start cnt).getD j 0 =
      if start ≤ j ∧ j < start + cnt then 0 else cl.getD j 0 := by
  induction cnt generalizing cl start with
  | zero =>
    simp only [zero_range]
    rw [if_neg (by omega)]
  | succ k ih =>
    simp only [zero_range]
    rw [ih]
    by_cases hj : j = start
    · subst hj
      rw [if_neg (by omega), if_pos (by omega)]
      unfold List.getD
      rw [List.get?_set_eq]
      cases cl.get? j <;> simp
    · by_cases hc : start ≤ j ∧ j < start + (k + 1)
      · rw [if_pos (by omega), if_pos hc]
      · rw [if_neg (by omega), if_neg hc]
        unfold List.getD
        rw [List.get?_set_ne _ cl (fun h => hj h.symm)]

theorem read_length_ext_replicate (m k : Nat) (rest : List Bool) :
    read_length_ext m (List.replicate k true ++ false :: rest) = some (m + k, rest) := by
  induction k generalizing m with
  | zero => simp [read_length_ext]
  | succ j ih =>
    rw [List.replicate_succ, List.cons_append]
    have hstep : read_length_ext m (true :: (List.replicate j true ++ false :: rest))
        = read_length_ext (m + 1) (List.replicate j true ++ false :: rest) := rfl
    rw [hstep, ih]
    congr 2
    omega

/-! ## The claims -/

/-- C2: for every offset code read, if the symbol decoded from the offset
tree is 0 the offset value is 0; if it is 1 the offset value is 1; otherwise,
for a symbol `b ≥ 2`, the decoder reads `b - 1` raw bits `x` and the offset
value is `(1 <<< (b - 1)) ||| x` (the source computes `x + (1 << (b - 1))`,
which coincides because `x < 2 ^ (b - 1)`). -/
theorem claim_C2 (t : HTree) (bs : List Bool) (b : Nat) (rest : List Bool)
    (h : read_from_tree t bs = some (b, rest)) :
    (b = 0 → read_offset_code t bs = some (0, rest)) ∧
    (b = 1 → read_offset_code t bs = some (1, rest)) ∧
    (∀ x rest2, 2 ≤ b → read_bits (b - 1) rest = some (x, rest2) →
      read_offset_code t bs = some ((1 <<< (b - 1)) ||| x, rest2)) := by
  refine ⟨?_, ?_, ?_⟩
  · intro hb
    subst hb
    unfold read_offset_code
    rw [h]
    rfl
  · intro hb
    subst hb
    unfold read_offset_code
    rw [h]
    rfl
  · intro x rest2 hb hrb
    unfold read_offset_code
    rw [h]
    have hb0 : b ≠ 0 := by omega
    have hb1 : b ≠ 1 := by omega
    simp only [hb0, hb1, if_false, hrb]
    have hx := read_bits_lt hrb
    have hpow : (1 : Nat) <<< (b - 1) = 2 ^ (b - 1) := by
      simp [Nat.shiftLeft_eq]
    rw [hpow, ← two_pow_add_eq_lor hx]
    congr 2
    omega

/-- Witness for C2 at a concrete input: the offset tree is a leaf for symbol
2, one raw bit 1 follows, and the decoded offset is `(1 << 1) | 1 = 3`. -/
theorem claim_C2_witness :
    read_from_tree (HTree.leaf 2) [true] = some (2, [true]) ∧
    read_bits 1 [true] = some (1, []) ∧
    read_offset_code (HTree.leaf 2) [true] = some ((1 <<< 1) ||| 1, []) :=
  ⟨rfl, by decide, (claim_C2 (HTree.leaf 2) [true] 2 [true] rfl).2.2 1 [] (by decide) (by decide)⟩

/-- C1: for every copy command with successfully decoded offset, the decoder
copies `count` bytes exactly as the spec-side `spec_copy_bytes` does: the
i-th byte is `ringbuf[(start + i) mod RING_BUFFER_SIZE]` of the evolving ring
buffer with `start = (ringbuf_pos + RING_BUFFER_SIZE - offset - 1) mod
RING_BUFFER_SIZE` (interpreted over ℤ), each copied byte going to both the
output and the ring buffer at the current write position (so overlapping
copies self-reference bytes just produced); and the command dispatch calls
the copy with `count = c - 256 + COPY_THRESHOLD = c - 256 + 3` for a code
`c ≥ 256`. -/
theorem claim_C1 (HB OB : Nat) (hHB : HB ≤ 32) (d : LHANewDecoder)
    (count offset : Nat) (bs : List Bool)
    (hoff : read_offset_code d.offset_tree d.bits = some (offset, bs)) :
    ((copy_from_history HB d count).1 =
      (spec_copy_bytes (2 ^ HB) d.ringbuf d.ringbuf_pos
        ((((d.ringbuf_pos : Int) + (2 ^ HB : Nat) - offset - 1) %
          ((2 ^ HB : Nat) : Int)).toNat) count).1 ∧
     (copy_from_history HB d count).2.ringbuf =
      (spec_copy_bytes (2 ^ HB) d.ringbuf d.ringbuf_pos
        ((((d.ringbuf_pos : Int) + (2 ^ HB : Nat) - offset - 1) %
          ((2 ^ HB : Nat) : Int)).toNat) count).2.1 ∧
     (copy_from_history HB d count).2.ringbuf_pos =
      (spec_copy_bytes (2 ^ HB) d.ringbuf d.ringbuf_pos
        ((((d.ringbuf_pos : Int) + (2 ^ HB : Nat) - offset - 1) %
          ((2 ^ HB : Nat) : Int)).toNat) count).2.2 ∧
     (copy_from_history HB d count).2.bits = bs) ∧
    (∀ d0 d1 c bs1, block_start_loop HB OB d0 = some d1 →
      read_from_tree d1.code_tree d1.bits = some (c, bs1) → 256 ≤ c →
      lha_lh_new_read HB OB d0 =
        copy_from_history HB
          { d1 with block_remaining := d1.block_remaining - 1, bits := bs1 }
          (c - 256 + 3)) := by
  constructor
  · have hmod := @copy_start_mod HB d.ringbuf_pos offset hHB
    unfold copy_from_history
    rw [hoff]
    have hspec := @copy_loop_spec (2 ^ HB) count
      ((d.ringbuf_pos + 2 ^ HB + (2 ^ 32 - (offset + 1) % 2 ^ 32)) % 2 ^ 32)
      ((((d.ringbuf_pos : Int) + (2 ^ HB : Nat) - offset - 1) %
          ((2 ^ HB : Nat) : Int)).toNat)
      { d with bits := bs } hmod
    have hstate := @copy_loop_state (2 ^ HB)
      ((d.ringbuf_pos + 2 ^ HB + (2 ^ 32 - (offset + 1) % 2 ^ 32)) % 2 ^ 32)
      { d with bits := bs } count
    exact ⟨hspec.1, hspec.2.1, hspec.2.2, hstate.1⟩
  · intro d0 d1 c bs1 hbsl hrc hc
    unfold lha_lh_new_read
    rw [hbsl]
    unfold read_code
    dsimp only
    rw [hrc]
    dsimp only
    rw [if_neg (by omega)]

/-- Witness for C1: ring `[7, 8]` (HB = 1), offset tree decoding offset 1
without consuming bits; the copy output equals the spec-side copy output. -/
theorem claim_C1_witness :
    (1 : Nat) ≤ 32 ∧
    read_offset_code (HTree.single 1) [] = some (1, []) ∧
    (copy_from_history 1 (mk_decoder [] [7, 8] 0 1 HTree.empty (HTree.single 1)) 2).1 =
      (spec_copy_bytes (2 ^ 1) [7, 8] 0
        ((((0 : Nat) : Int) + (2 ^ 1 : Nat) - 1 - 1) % ((2 ^ 1 : Nat) : Int)).toNat 2).1 :=
  ⟨by decide, rfl, ((claim_C1 1 4 (by decide)
      (mk_decoder [] [7, 8] 0 1 HTree.empty (HTree.single 1)) 2 1 [] rfl).1).1⟩

/-- C4: the function `read` never emits a partial command.  (a) `copy_from_history` either
writes exactly `count` bytes or, when the offset read fails, writes nothing
and leaves the ring buffer and write position untouched; (b) when the offset
read inside a copy command fails, `read` returns no bytes, the ring state is
that of the block-start loop's result, and `block_remaining` has already been
decremented; (c) every `read` emits either nothing, a single literal byte, or
the complete copy of `c - 256 + 3` bytes for the decoded code `c ≥ 256`. -/
theorem claim_C4 (HB OB : Nat) :
    (∀ d count, (copy_from_history HB d count).1.length = count ∨
      ((copy_from_history HB d count).1 = [] ∧
       read_offset_code d.offset_tree d.bits = none ∧
       (copy_from_history HB d count).2.ringbuf = d.ringbuf ∧
       (copy_from_history HB d count).2.ringbuf_pos = d.ringbuf_pos)) ∧
    (∀ d d1 c bs1, block_start_loop HB OB d = some d1 →
      read_from_tree d1.code_tree d1.bits = some (c, bs1) → 256 ≤ c →
      read_offset_code d1.offset_tree bs1 = none →
      lha_lh_new_read HB OB d =
        ([], { d1 with block_remaining := d1.block_remaining - 1, bits := [] })) ∧
    (∀ d, (lha_lh_new_read HB OB d).1 = [] ∨
      (∃ b, (lha_lh_new_read HB OB d).1 = [b] ∧ b < 256) ∨
      (∃ d1 c bs1, block_start_loop HB OB d = some d1 ∧
        read_from_tree d1.code_tree d1.bits = some (c, bs1) ∧ 256 ≤ c ∧
        (lha_lh_new_read HB OB d).1.length = c - 256 + 3)) := by
  refine ⟨?_, ?_, ?_⟩
  · intro d count
    unfold copy_from_history
    cases hoc : read_offset_code d.offset_tree d.bits with
    | none =>
      right
      dsimp only
      exact ⟨rfl, rfl, rfl, rfl⟩
    | some ob =>
      left
      dsimp only
      exact copy_loop_len
  · intro d d1 c bs1 hbsl hrc hc hoffn
    unfold lha_lh_new_read
    rw [hbsl]
    unfold read_code
    dsimp only
    rw [hrc]
    dsimp only
    rw [if_neg (by omega)]
    unfold copy_from_history
    dsimp only
    rw [hoffn]
  · intro d
    unfold lha_lh_new_read
    cases hbsl : block_start_loop HB OB d with
    | none => left; rfl
    | some d1 =>
      unfold read_code
      dsimp only
      cases hrc : read_from_tree d1.code_tree d1.bits with
      | none => left; rfl
      | some cb =>
        dsimp only
        by_cases hlt : cb.1 < 256
        · rw [if_pos hlt]
          right
          left
          exact ⟨cb.1, rfl, hlt⟩
        · rw [if_neg hlt]
          unfold copy_from_history
          dsimp only
          cases hoc : read_offset_code d1.offset_tree cb.2 with
          | none => left; rfl
          | some ob =>
            right
            right
            refine ⟨d1, cb.1, cb.2, rfl, ?_, by omega, ?_⟩
            · rw [hrc]
            · dsimp only
              exact copy_loop_len

/-- Witness for C4: a decoder mid-block whose code tree immediately yields
the copy code 256 and whose offset tree immediately fails on the exhausted
stream: `read` returns no bytes with `block_remaining` decremented from 2
to 1. -/
theorem claim_C4_witness :
    block_start_loop 1 4 (mk_decoder [] [7, 8] 0 2 (HTree.single 256) HTree.empty) =
      some (mk_decoder [] [7, 8] 0 2 (HTree.single 256) HTree.empty) ∧
    read_from_tree (HTree.single 256) [] = some (256, []) ∧
    (256 : Nat) ≤ 256 ∧
    read_offset_code HTree.empty [] = none ∧
    lha_lh_new_read 1 4 (mk_decoder [] [7, 8] 0 2 (HTree.single 256) HTree.empty) =
      ([], mk_decoder [] [7, 8] 0 1 (HTree.single 256) HTree.empty) := by
  have h1 : block_start_loop 1 4 (mk_decoder [] [7, 8] 0 2 (HTree.single 256) HTree.empty) =
      some (mk_decoder [] [7, 8] 0 2 (HTree.single 256) HTree.empty) := by
    rw [block_start_loop.eq_def]
    simp [mk_decoder]
  refine ⟨h1, rfl, by decide, rfl, ?_⟩
  have h2 := (claim_C4 1 4).2.1 (mk_decoder [] [7, 8] 0 2 (HTree.single 256) HTree.empty)
    (mk_decoder [] [7, 8] 0 2 (HTree.single 256) HTree.empty) 256 [] h1 rfl (by decide) rfl
  exact h2

/-- C3 (counterexample to the claim as stated): a stream whose block header
declares block length 1, temp table `n = 0` (single code 0), code table
`n = 0` with raw 9-bit single code 511, and offset table `n = 0` (single
code 0) is accepted by `start_new_block`; the first command then decodes the
symbol 511 — outside `[0, 510)` — and the single call to `read` writes
`511 - 256 + 3 = 258` bytes, exceeding the claimed bound of 257. -/
theorem claim_C3_counterexample :
    257 < (lha_lh_new_read 13 4 (lha_lh_new_init 13
      (List.replicate 15 false ++ [true] ++ List.replicate 10 false ++
       List.replicate 9 false ++ List.replicate 9 true ++
       List.replicate 8 false))).1.length := by
  have h1 : start_new_block 13 4 (lha_lh_new_init 13
      (List.replicate 15 false ++ [true] ++ List.replicate 10 false ++
       List.replicate 9 false ++ List.replicate 9 true ++
       List.replicate 8 false)) =
      some (mk_decoder [] (List.replicate (2 ^ 13) 32) 0 1
        (HTree.single 511) (HTree.single 0)) := by
    rfl
  have h2 : block_start_loop 13 4 (lha_lh_new_init 13
      (List.replicate 15 false ++ [true] ++ List.replicate 10 false ++
       List.replicate 9 false ++ List.replicate 9 true ++
       List.replicate 8 false)) =
      some (mk_decoder [] (List.replicate (2 ^ 13) 32) 0 1
        (HTree.single 511) (HTree.single 0)) := by
    rw [block_start_loop.eq_def]
    rw [if_neg (fun hcon => hcon rfl)]
    rw [h1]
    dsimp only
    rw [dif_pos (by decide)]
    rw [block_start_loop.eq_def]
    rw [if_pos (by decide)]
  unfold lha_lh_new_read
  rw [h2]
  unfold read_code
  dsimp only [mk_decoder]
  have hrc : read_from_tree (HTree.single 511) [] = some (511, []) := rfl
  rw [hrc]
  dsimp only
  rw [if_neg (by decide)]
  unfold copy_from_history
  dsimp only
  have hoc : read_offset_code (HTree.single 0) [] = some (0, []) := rfl
  rw [hoc]
  dsimp only
  rw [copy_loop_len]
  omega

/-- C3 (amended): every code table accepted by `read_code_table` has all its
symbols below 512 — trees built by `build_tree` only carry the up-to-510
declared symbols, but the single-code path stores a raw 9-bit value which may
be 510 or 511 — and consequently one call to `read` that begins at a block
boundary writes at most `511 - 256 + 3 = 258` bytes (not 257). -/
theorem claim_C3 (HB OB : Nat) :
    (∀ d d', read_code_table d = some d' → tree_syms_below 512 d'.code_tree = true) ∧
    (∀ d, d.block_remaining = 0 → (lha_lh_new_read HB OB d).1.length ≤ 258) := by
  constructor
  · exact fun d d' h => read_code_table_below h
  · intro d hrem
    unfold lha_lh_new_read
    cases hbsl : block_start_loop HB OB d with
    | none => simp
    | some d1 =>
      have hbelow := block_start_loop_below hrem hbsl
      unfold read_code
      dsimp only
      cases hrc : read_from_tree d1.code_tree d1.bits with
      | none => simp
      | some cb =>
        have hlt := read_from_tree_below hbelow hrc
        dsimp only
        by_cases hc : cb.1 < 256
        · rw [if_pos hc]
          simp
        · rw [if_neg hc]
          unfold copy_from_history
          dsimp only
          cases hoc : read_offset_code d1.offset_tree cb.2 with
          | none => simp
          | some ob =>
            dsimp only
            rw [copy_loop_len]
            omega

/-- Witness for C3 (amended): the first `read` of the counterexample stream
begins at a block boundary and writes 258 ≤ 258 bytes. -/
theorem claim_C3_witness :
    (lha_lh_new_init 13 (List.replicate 15 false ++ [true] ++ List.replicate 10 false ++
       List.replicate 9 false ++ List.replicate 9 true ++
       List.replicate 8 false)).block_remaining = 0 ∧
    (lha_lh_new_read 13 4 (lha_lh_new_init 13
      (List.replicate 15 false ++ [true] ++ List.replicate 10 false ++
       List.replicate 9 false ++ List.replicate 9 true ++
       List.replicate 8 false))).1.length ≤ 258 :=
  ⟨rfl, (claim_C3 13 4).2 _ rfl⟩

/-- C5: one iteration of the main code-table reading loop at position
`i < n`: a temp-tree symbol 0 skips exactly 1 entry (its skip count is 1,
read without further bits); symbol 1 reads 4 more bits `k` and skips
`k + 3` entries; symbol 2 reads 9 more bits `k` and skips `k + 20` entries —
each run of skipped entries is zero-filled and truncated at `n` — and a
symbol `v ≥ 3` writes code length `v - 2` as the next entry.  The final
conjunct describes the zero fill: `zero_range` zeroes exactly the indices in
`[start, start + cnt)`. -/
theorem claim_C5 (t : HTree) (n i : Nat) (cl : List Nat) (bs : List Bool)
    (hin : i < n) :
    (∀ bs1, read_from_tree t bs = some (0, bs1) →
      read_skip_count 0 bs1 = some (1, bs1) ∧
      code_table_loop t n i cl bs = code_table_loop t n (i + 1) (cl.set i 0) bs1) ∧
    (∀ bs1 k bs2, read_from_tree t bs = some (1, bs1) →
      read_bits 4 bs1 = some (k, bs2) →
      code_table_loop t n i cl bs =
        code_table_loop t n (i + min (k + 3) (n - i))
          (zero_range cl i (min (k + 3) (n - i))) bs2) ∧
    (∀ bs1 k bs2, read_from_tree t bs = some (2, bs1) →
      read_bits 9 bs1 = some (k, bs2) →
      code_table_loop t n i cl bs =
        code_table_loop t n (i + min (k + 20) (n - i))
          (zero_range cl i (min (k + 20) (n - i))) bs2) ∧
    (∀ v bs1, read_from_tree t bs = some (v, bs1) → 3 ≤ v →
      code_table_loop t n i cl bs =
        code_table_loop t n (i + 1) (cl.set i (v - 2)) bs1) ∧
    (∀ start cnt j, (zero_range cl start cnt).getD j 0 =
      if start ≤ j ∧ j < start + cnt then 0 else cl.getD j 0) := by
  refine ⟨?_, ?_, ?_, ?_, fun start cnt j => zero_range_getD cl start cnt j⟩
  · intro bs1 hrc
    have hsk : read_skip_count 0 bs1 = some (1, bs1) := rfl
    refine ⟨hsk, ?_⟩
    conv_lhs => rw [code_table_loop.eq_def]
    rw [dif_pos hin, hrc]
    dsimp only
    rw [if_pos (by decide)]
    split
    · rename_i heq
      rw [hsk] at heq
      exact absurd heq (by simp)
    · rename_i sb heq
      rw [hsk] at heq
      simp only [Option.some.injEq] at heq
      subst heq
      have hmin : min 1 (n - i) = 1 := by omega
      dsimp only
      rw [hmin]
      rfl
  · intro bs1 k bs2 hrc hrb
    have hsk : read_skip_count 1 bs1 = some (k + 3, bs2) := by
      unfold read_skip_count
      rw [if_neg (by decide), if_pos rfl, hrb]
    conv_lhs => rw [code_table_loop.eq_def]
    rw [dif_pos hin, hrc]
    dsimp only
    rw [if_pos (by decide)]
    split
    · rename_i heq
      rw [hsk] at heq
      exact absurd heq (by simp)
    · rename_i sb heq
      rw [hsk] at heq
      simp only [Option.some.injEq] at heq
      subst heq
      rfl
  · intro bs1 k bs2 hrc hrb
    have hsk : read_skip_count 2 bs1 = some (k + 20, bs2) := by
      unfold read_skip_count
      rw [if_neg (by decide), if_neg (by decide), hrb]
    conv_lhs => rw [code_table_loop.eq_def]
    rw [dif_pos hin, hrc]
    dsimp only
    rw [if_pos (by decide)]
    split
    · rename_i heq
      rw [hsk] at heq
      exact absurd heq (by simp)
    · rename_i sb heq
      rw [hsk] at heq
      simp only [Option.some.injEq] at heq
      subst heq
      rfl
  · intro v bs1 hrc hv
    conv_lhs => rw [code_table_loop.eq_def]
    rw [dif_pos hin, hrc]
    dsimp only
    rw [if_neg (by omega)]

/-- Witness for C5: with a code tree that is a leaf for symbol 5, one loop
iteration at `i = 0 < 3` writes code length `5 - 2 = 3` into entry 0. -/
theorem claim_C5_witness :
    (0 : Nat) < 3 ∧
    read_from_tree (HTree.leaf 5) [] = some (5, []) ∧ (3 : Nat) ≤ 5 ∧
    code_table_loop (HTree.leaf 5) 3 0 (List.replicate 3 9) [] =
      code_table_loop (HTree.leaf 5) 3 1 ((List.replicate 3 9).set 0 3) [] :=
  ⟨by decide, rfl, by decide,
    (claim_C5 (HTree.leaf 5) 3 0 (List.replicate 3 9) [] (by decide)).2.2.2.1 5 [] rfl
      (by decide)⟩

/-- C6: temp-table lengths are read by `read_length_value` (3 bits; the
value 7 is extended in unary, one extra bit per 1 until the first 0), each
stored into the `uint8_t` length array (truncated modulo 256), and exactly
after the length at index 2 has been read, a 2-bit skip value `s` is read
and `s` zero lengths are written at the following indices, the next read
length landing at index `2 + s + 1`. -/
theorem claim_C6 (n : Nat) (cl : List Nat) (ws : List (Nat × Nat)) (bs : List Bool) :
    (∀ v bs1, read_bits 3 bs = some (v, bs1) → v ≠ 7 →
      read_length_value bs = some (v, bs1)) ∧
    (∀ bs1 k rest, read_bits 3 bs = some (7, bs1) →
      bs1 = List.replicate k true ++ false :: rest →
      read_length_value bs = some (7 + k, rest)) ∧
    (∀ len bs1 s bs2, 2 < n →
      read_length_value bs = some (len, bs1) →
      read_bits 2 bs1 = some (s, bs2) →
      temp_table_loop n 2 cl ws bs =
        temp_table_loop n (2 + s + 1) (zero_range (cl.set 2 (len % 256)) 3 s)
          (ws ++ [(2, len % 256)] ++ (List.range s).map (fun j => (3 + j, 0))) bs2) ∧
    (∀ len bs1 i, i < n → i ≠ 2 →
      read_length_value bs = some (len, bs1) →
      temp_table_loop n i cl ws bs =
        temp_table_loop n (i + 1) (cl.set i (len % 256))
          (ws ++ [(i, len % 256)]) bs1) := by
  refine ⟨?_, ?_, ?_, ?_⟩
  · intro v bs1 hrb hv
    unfold read_length_value
    rw [hrb]
    dsimp only
    rw [if_neg hv]
  · intro bs1 k rest hrb hform
    unfold read_length_value
    rw [hrb]
    dsimp only
    rw [if_pos rfl, hform]
    exact read_length_ext_replicate 7 k rest
  · intro len bs1 s bs2 h2n hlv hrb2
    conv_lhs => rw [temp_table_loop.eq_def]
    rw [if_pos h2n, hlv]
    dsimp only
    rw [if_pos rfl, hrb2]
  · intro len bs1 i hin hi2 hlv
    conv_lhs => rw [temp_table_loop.eq_def]
    rw [if_pos hin, hlv]
    dsimp only
    rw [if_neg hi2]

/-- Witness for C6: with `n = 5` and input bits `000 11`, the length 0 is
written at index 2, the 2-bit skip 3 inserts zeros at indices 3, 4, 5, and
the loop continues at index 6. -/
theorem claim_C6_witness :
    (2 : Nat) < 5 ∧
    read_length_value [false, false, false, true, true] = some (0, [true, true]) ∧
    read_bits 2 [true, true] = some (3, []) ∧
    temp_table_loop 5 2 (List.replicate 20 0) [] [false, false, false, true, true] =
      temp_table_loop 5 (2 + 3 + 1) (zero_range ((List.replicate 20 0).set 2 0) 3 3)
        (([] : List (Nat × Nat)) ++ [(2, 0)] ++
          (List.range 3).map (fun j => (3 + j, 0))) [] :=
  ⟨by decide, by decide, by decide,
    (claim_C6 5 (List.replicate 20 0) [] [false, false, false, true, true]).2.2.1 0
      [true, true] 3 [] (by decide) (by decide) (by decide)⟩

/-- C7: the function `read` returns no bytes (= 0) on end-of-stream and on every decode
failure: when the block-start loop fails, and when the command-code decode
fails; and a failure of any sub-read of the block header — the 16-bit block
length, the temp table, the code table, or the offset table — makes
`start_new_block` fail, which on a block boundary makes the loop and hence
`read` fail. -/
theorem claim_C7 (HB OB : Nat) (d : LHANewDecoder) :
    (block_start_loop HB OB d = none → (lha_lh_new_read HB OB d).1 = []) ∧
    (∀ d1, block_start_loop HB OB d = some d1 →
      read_from_tree d1.code_tree d1.bits = none → (lha_lh_new_read HB OB d).1 = []) ∧
    (read_bits 16 d.bits = none → start_new_block HB OB d = none) ∧
    (∀ len bs1, read_bits 16 d.bits = some (len, bs1) →
      read_temp_table { d with block_remaining := len, bits := bs1 } = none →
      start_new_block HB OB d = none) ∧
    (∀ len bs1 d2, read_bits 16 d.bits = some (len, bs1) →
      read_temp_table { d with block_remaining := len, bits := bs1 } = some d2 →
      read_code_table d2 = none → start_new_block HB OB d = none) ∧
    (∀ len bs1 d2 d3, read_bits 16 d.bits = some (len, bs1) →
      read_temp_table { d with block_remaining := len, bits := bs1 } = some d2 →
      read_code_table d2 = some d3 → read_offset_table HB OB d3 = none →
      start_new_block HB OB d = none) ∧
    (d.block_remaining = 0 → start_new_block HB OB d = none →
      block_start_loop HB OB d = none) := by
  refine ⟨?_, ?_, ?_, ?_, ?_, ?_, ?_⟩
  · intro hbsl
    unfold lha_lh_new_read
    rw [hbsl]
  · intro d1 hbsl hrc
    unfold lha_lh_new_read
    rw [hbsl]
    unfold read_code
    dsimp only
    rw [hrc]
  · intro hrb
    unfold start_new_block
    rw [hrb]
  · intro len bs1 hrb htt
    unfold start_new_block
    rw [hrb]
    dsimp only
    rw [htt]
  · intro len bs1 d2 hrb htt hct
    unfold start_new_block
    rw [hrb]
    dsimp only
    rw [htt]
    dsimp only
    rw [hct]
  · intro len bs1 d2 d3 hrb htt hct hot
    unfold start_new_block
    rw [hrb]
    dsimp only
    rw [htt]
    dsimp only
    rw [hct]
    dsimp only
    exact hot
  · intro hrem hsnb
    rw [block_start_loop.eq_def]
    rw [if_neg (by omega), hsnb]

/-- Witness for C7: the empty stream makes the first 16-bit read fail,
`start_new_block` fail, the loop fail, and `read` return no bytes. -/
theorem claim_C7_witness :
    read_bits 16 [] = none ∧
    start_new_block 1 4 (mk_decoder [] [7, 8] 0 0 HTree.empty HTree.empty) = none ∧
    block_start_loop 1 4 (mk_decoder [] [7, 8] 0 0 HTree.empty HTree.empty) = none ∧
    (lha_lh_new_read 1 4 (mk_decoder [] [7, 8] 0 0 HTree.empty HTree.empty)).1 = [] := by
  have h1 : read_bits 16 ([] : List Bool) = none := by decide
  have h2 := (claim_C7 1 4 (mk_decoder [] [7, 8] 0 0 HTree.empty HTree.empty)).2.2.1 h1
  have h3 := (claim_C7 1 4 (mk_decoder [] [7, 8] 0 0 HTree.empty HTree.empty)).2.2.2.2.2.2
    rfl h2
  exact ⟨h1, h2, h3, (claim_C7 1 4 (mk_decoder [] [7, 8] 0 0 HTree.empty HTree.empty)).1 h3⟩

/-- C8: the ring buffer is initialized to 0x20 = 32 everywhere with write
position 0; `output_byte` keeps the write position in `[0, RING_BUFFER_SIZE)`
and preserves the buffer length; the copy loop preserves both; and every
ring index, being reduced modulo `RING_BUFFER_SIZE`, is below
`RING_BUFFER_SIZE` (hence within a buffer of that length). -/
theorem claim_C8 (HB : Nat) (bs : List Bool) (d : LHANewDecoder)
    (b start count j : Nat) :
    ((lha_lh_new_init HB bs).ringbuf = List.replicate (2 ^ HB) 32 ∧
     (lha_lh_new_init HB bs).ringbuf_pos = 0 ∧
     (j < 2 ^ HB → (lha_lh_new_init HB bs).ringbuf.getD j 0 = 32)) ∧
    (d.ringbuf_pos < 2 ^ HB → (output_byte (2 ^ HB) d b).ringbuf_pos < 2 ^ HB) ∧
    ((output_byte (2 ^ HB) d b).ringbuf.length = d.ringbuf.length) ∧
    (d.ringbuf_pos < 2 ^ HB →
      (copy_loop (2 ^ HB) start d count).2.ringbuf_pos < 2 ^ HB ∧
      (copy_loop (2 ^ HB) start d count).2.ringbuf.length = d.ringbuf.length) ∧
    ((start + j) % 2 ^ HB < 2 ^ HB) := by
  have hN : 0 < 2 ^ HB := Nat.pos_pow_of_pos _ (by omega)
  refine ⟨⟨rfl, rfl, ?_⟩, ?_, ?_, ?_, ?_⟩
  · intro hj
    show (List.replicate (2 ^ HB) 32).getD j 0 = 32
    unfold List.getD
    rw [List.get?_eq_getElem?, List.getElem?_replicate, if_pos hj]
    rfl
  · intro hpos
    exact Nat.mod_lt _ hN
  · simp [output_byte]
  · intro hpos
    exact ⟨copy_loop_pos hN hpos, copy_loop_state.2.2⟩
  · exact Nat.mod_lt _ hN

/-- Witness for C8: a two-byte ring (HB = 1) with write position 0: one
output keeps the position below 2, and the copy loop preserves length 2. -/
theorem claim_C8_witness :
    (mk_decoder [] [7, 8] 0 1 HTree.empty HTree.empty).ringbuf_pos < 2 ^ 1 ∧
    (copy_loop (2 ^ 1) 5 (mk_decoder [] [7, 8] 0 1 HTree.empty HTree.empty) 3).2.ringbuf_pos
      < 2 ^ 1 ∧
    (copy_loop (2 ^ 1) 5 (mk_decoder [] [7, 8] 0 1 HTree.empty HTree.empty) 3).2.ringbuf.length
      = (mk_decoder [] [7, 8] 0 1 HTree.empty HTree.empty).ringbuf.length := by
  have h := (claim_C8 1 [] (mk_decoder [] [7, 8] 0 1 HTree.empty HTree.empty) 0 5 3 0).2.2.2.1
    (by decide)
  exact ⟨by decide, h.1, h.2⟩

/-- C9: the block-header loop of `read` terminates on finite input: each
successful `start_new_block` consumes at least the 16 bits of the block
length, and the loop — which re-runs `start_new_block` while
`block_remaining = 0`, skipping zero-length blocks — either fails or ends in
a state with `block_remaining ≠ 0`, never touching the ring buffer. -/
theorem claim_C9 (HB OB : Nat) (d d' : LHANewDecoder) :
    (start_new_block HB OB d = some d' → d'.bits.length + 16 ≤ d.bits.length) ∧
    (block_start_loop HB OB d = some d' →
      d'.block_remaining ≠ 0 ∧ d'.ringbuf = d.ringbuf ∧
      d'.ringbuf_pos = d.ringbuf_pos) := by
  constructor
  · exact start_new_block_len
  · intro h
    exact ⟨block_start_loop_remaining h, (block_start_loop_ring h).1,
      (block_start_loop_ring h).2⟩

/-- Witness for C9: the concrete 52-bit block header consumes all 52 ≥ 16
bits, and the loop ends with `block_remaining = 1 ≠ 0` and the ring intact. -/
theorem claim_C9_witness :
    start_new_block 13 4 (lha_lh_new_init 13
      (List.replicate 15 false ++ [true] ++ List.replicate 10 false ++
       List.replicate 9 false ++ List.replicate 9 true ++ List.replicate 8 false)) =
      some (mk_decoder [] (List.replicate (2 ^ 13) 32) 0 1
        (HTree.single 511) (HTree.single 0)) ∧
    (mk_decoder [] (List.replicate (2 ^ 13) 32) 0 1
        (HTree.single 511) (HTree.single 0)).bits.length + 16 ≤
      (lha_lh_new_init 13
        (List.replicate 15 false ++ [true] ++ List.replicate 10 false ++
         List.replicate 9 false ++ List.replicate 9 true ++
         List.replicate 8 false)).bits.length := by
  have h1 : start_new_block 13 4 (lha_lh_new_init 13
      (List.replicate 15 false ++ [true] ++ List.replicate 10 false ++
       List.replicate 9 false ++ List.replicate 9 true ++ List.replicate 8 false)) =
      some (mk_decoder [] (List.replicate (2 ^ 13) 32) 0 1
        (HTree.single 511) (HTree.single 0)) := by rfl
  exact ⟨h1, (claim_C9 13 4 _ _).1 h1⟩

/-- C10: every store into the 20-entry temp-table length array is at an index
below 20: starting from a write trace whose indices are below 20, with
`n ≤ 20` (the clamped code count), the loop only appends stores at indices
below 20 — ordinary stores at `i < n`, and the skip-field stores (which
happen only at `i = 2`, with a 2-bit skip value `s < 4`) at indices
`2 + 1 + j ≤ 5` for `j < s`. -/
theorem claim_C10 (n i : Nat) (cl : List Nat) (ws : List (Nat × Nat))
    (bs : List Bool) (r : List Nat × List (Nat × Nat) × List Bool) :
    (n ≤ 20 → (∀ p ∈ ws, p.1 < 20) → temp_table_loop n i cl ws bs = some r →
      ∀ p ∈ r.2.1, p.1 < 20) ∧
    (∀ s bs2 j, read_bits 2 bs = some (s, bs2) → j < s → 2 + 1 + j ≤ 5) := by
  constructor
  · intro hn
    induction i, cl, ws, bs using temp_table_loop.induct (n := n) generalizing r with
    | case1 i cl ws bs hin hnone =>
      intro hws h
      rw [temp_table_loop.eq_def] at h
      simp only [if_pos hin, hnone] at h
      exact absurd h (by simp)
    | case2 cl ws bs lb hlb hnone h2n =>
      intro hws h
      rw [temp_table_loop.eq_def] at h
      simp only [if_pos h2n, hlb, hnone, if_true] at h
      exact absurd h (by simp)
    | case3 cl ws bs lb hlb sb hsb h2n ih =>
      intro hws h
      rw [temp_table_loop.eq_def] at h
      simp only [if_pos h2n, hlb, hsb, if_true] at h
      refine ih _ ?_ h
      intro p hp
      rcases List.mem_append.1 hp with hp1 | hp1
      · rcases List.mem_append.1 hp1 with hp2 | hp2
        · exact hws p hp2
        · simp only [List.mem_singleton] at hp2
          subst hp2
          omega
      · obtain ⟨jj, hjj, hpj⟩ := List.mem_map.1 hp1
        subst hpj
        have hs4 := read_bits_lt hsb
        have hjlt := List.mem_range.1 hjj
        norm_num at hs4
        omega
    | case4 i cl ws bs hin lb hlb hi2 ih =>
      intro hws h
      rw [temp_table_loop.eq_def] at h
      simp only [if_pos hin, hlb, if_neg hi2] at h
      refine ih _ ?_ h
      intro p hp
      rcases List.mem_append.1 hp with hp1 | hp1
      · exact hws p hp1
      · simp only [List.mem_singleton] at hp1
        subst hp1
        omega
    | case5 i cl ws bs hin =>
      intro hws h
      rw [temp_table_loop.eq_def] at h
      simp only [if_neg hin, Option.some.injEq] at h
      subst h
      exact hws
  · intro s bs2 j hrb hj
    have hs4 := read_bits_lt hrb
    norm_num at hs4
    omega

/-- Witness for C10: a one-code temp table (`n = 1`) whose single store is at
index 0 < 20. -/
theorem claim_C10_witness :
    (1 : Nat) ≤ 20 ∧
    temp_table_loop 1 0 (List.replicate 20 0) [] [false, false, false] =
      some ((List.replicate 20 0).set 0 0, [(0, 0)], []) ∧
    ((0, 0) : Nat × Nat).1 < 20 := by
  have h : temp_table_loop 1 0 (List.replicate 20 0) [] [false, false, false] =
      some ((List.replicate 20 0).set 0 0, [(0, 0)], []) := by
    rw [temp_table_loop.eq_def]
    rw [if_pos (by decide)]
    rw [show read_length_value [false, false, false] = some (0, []) from by decide]
    dsimp only
    rw [if_neg (by decide)]
    rw [temp_table_loop.eq_def]
    rw [if_neg (by decide)]
    rfl
  refine ⟨by decide, h, ?_⟩
  exact (claim_C10 1 0 (List.replicate 20 0) [] [false, false, false]
    ((List.replicate 20 0).set 0 0, [(0, 0)], [])).1 (by decide) (by simp) h
    (0, 0) (by simp)
